import Mathlib

/-!
Verification development for `summarize_evaluations.py` of the
covid19-forecast-hub-evaluation repository.

The script is shallowly embedded: dates become a `Date` structure with the
proleptic-Gregorian ordinal used for day arithmetic, pandas frames become
association-list based tables with `Option ℚ` entries (missing = `none`),
and Python exceptions become `Except PyError`.
-/

namespace SummarizeEvaluations

/-! ### Character-list string helpers (faithful to Python `in`, `split`, …) -/

/-- Is `pat` a prefix of the second list?  Mirrors the test done at each
position by Python's substring search. -/
def isPrefixL : List Char → List Char → Bool
  | [], _ => true
  | _ :: _, [] => false
  | p :: ps, c :: cs => p == c && isPrefixL ps cs

/-- Substring containment on character lists: Python's `pat in s`. -/
def containsL (pat : List Char) : List Char → Bool
  | [] => isPrefixL pat []
  | c :: cs => isPrefixL pat (c :: cs) || containsL pat cs

/-- Python's `pat in s` on strings. -/
def strContains (s pat : String) : Bool := containsL pat.data s.data

/-- Python's `str.split(sep)` for a one-character separator, on char lists. -/
def splitOnCharAux (sep : Char) (acc : List Char) : List Char → List (List Char)
  | [] => [acc.reverse]
  | c :: cs =>
    if c == sep then acc.reverse :: splitOnCharAux sep [] cs
    else splitOnCharAux sep (c :: acc) cs

/-- Python's `s.split(sep)` (single-character separator). -/
def splitOnChar (sep : Char) (l : List Char) : List (List Char) :=
  splitOnCharAux sep [] l

/-- Python's `s.replace('.csv', '')`: delete every occurrence of `".csv"`. -/
def replaceCsv : List Char → List Char
  | [] => []
  | '.' :: 'c' :: 's' :: 'v' :: rest => replaceCsv rest
  | c :: cs => c :: replaceCsv cs

/-- `os.path.basename`: the segment after the last `'/'`. -/
def basenameAux (acc : List Char) : List Char → List Char
  | [] => acc.reverse
  | c :: cs => if c == '/' then basenameAux [] cs else basenameAux (c :: acc) cs

/-- `os.path.basename fname` on char lists. -/
def basenameChars (l : List Char) : List Char := basenameAux [] l

/-- All characters are decimal digits. -/
def allDigits (l : List Char) : Bool := l.all (fun c => c.isDigit)

/-- Decimal value of a digit list. -/
def digitsVal (l : List Char) : Nat :=
  l.foldl (fun acc c => acc * 10 + (c.toNat - 48)) 0

/-! ### Dates (`datetime.date`, `strptime('%Y-%m-%d')`, `toordinal`) -/

structure Date where
  year : Nat
  month : Nat
  day : Nat
deriving DecidableEq, Repr

/-- Gregorian leap year, as in `datetime`. -/
def isLeap (y : Nat) : Bool := y % 4 == 0 && (y % 100 != 0 || y % 400 == 0)

/-- Number of days in a month. -/
def daysInMonth (y m : Nat) : Nat :=
  if m == 2 then (if isLeap y then 29 else 28)
  else if m == 4 || m == 6 || m == 9 || m == 11 then 30
  else 31

/-- Days in all full years before year `y` (proleptic Gregorian). -/
def daysBeforeYear (y : Nat) : Nat :=
  let n := y - 1
  n * 365 + n / 4 - n / 100 + n / 400

/-- Days in the full months of year `y` before month `m`. -/
def daysBeforeMonth (y : Nat) : Nat → Nat
  | 0 => 0
  | m + 1 => daysBeforeMonth y m + (if m == 0 then 0 else daysInMonth y m)

/-- `datetime.date.toordinal`: 0001-01-01 is day 1. -/
def toOrdinal (d : Date) : Nat :=
  daysBeforeYear d.year + daysBeforeMonth d.year d.month + d.day

/-- Chronological strict order on dates (Python `<` on `datetime.date`
for the valid dates produced by parsing). -/
def dateLt (a b : Date) : Bool := toOrdinal a < toOrdinal b

/-- `(b - a).days` for dates. -/
def daysAhead (a b : Date) : Int := (toOrdinal b : Int) - (toOrdinal a : Int)

/-- `datetime.datetime.strptime(s, '%Y-%m-%d').date()` as a total function:
`none` is Python's `ValueError`.  `%Y` takes exactly four digits, `%m` and
`%d` one or two, the whole string must be consumed, and the fields must form
a valid calendar date with year at least 1. -/
def str_to_date (s : List Char) : Option Date :=
  match splitOnChar '-' s with
  | [ys, ms, ds] =>
    if ys.length == 4 && allDigits ys
        && (ms.length == 1 || ms.length == 2) && allDigits ms
        && (ds.length == 1 || ds.length == 2) && allDigits ds then
      let y := digitsVal ys
      let m := digitsVal ms
      let d := digitsVal ds
      if 1 ≤ y ∧ 1 ≤ m ∧ m ≤ 12 ∧ 1 ≤ d ∧ d ≤ daysInMonth y m then
        some ⟨y, m, d⟩
      else none
    else none
  | _ => none

/-! ### Filename parsing (`get_dates_from_fname`) -/

/-- The Python exceptions that can escape the modelled fragment. -/
inductive PyError where
  | indexError
  | valueError
  | assertionError
deriving DecidableEq, Repr

/-- The underscore-separated tokens of `basename(fname).replace('.csv','')`. -/
def tokensOf (fname : String) : List (List Char) :=
  splitOnChar '_' (replaceCsv (basenameChars fname.data))

/-- Layout A of the try-block: token 0 is the projection date, token 1 the
evaluation date.  A date that fails to parse is a `ValueError` (caught by
the caller); a missing token is an uncaught `IndexError`. -/
def tryLayoutA (toks : List (List Char)) : Except PyError (Date × Date) :=
  match toks[0]? with
  | none => .error .indexError
  | some t0 =>
    match str_to_date t0 with
    | none => .error .valueError
    | some pd =>
      match toks[1]? with
      | none => .error .indexError
      | some t1 =>
        match str_to_date t1 with
        | none => .error .valueError
        | some ed => .ok (pd, ed)

/-- Layout B of the except-block: tokens 1 and 2 hold the dates.  Failures
here are uncaught. -/
def tryLayoutB (toks : List (List Char)) : Except PyError (Date × Date) :=
  match toks[1]? with
  | none => .error .indexError
  | some t1 =>
    match str_to_date t1 with
    | none => .error .valueError
    | some pd =>
      match toks[2]? with
      | none => .error .indexError
      | some t2 =>
        match str_to_date t2 with
        | none => .error .valueError
        | some ed => .ok (pd, ed)

/-- The try/except of `get_dates_from_fname`: layout A first; only a
`ValueError` from layout A falls through to layout B. -/
def rawDates (fname : String) : Except PyError (Date × Date) :=
  match tryLayoutA (tokensOf fname) with
  | .ok p => .ok p
  | .error .valueError => tryLayoutB (tokensOf fname)
  | .error e => .error e

/-- `get_dates_from_fname`, including the `assert eval_date > proj_date`. -/
def get_dates_from_fname (fname : String) : Except PyError (Date × Date) :=
  match rawDates fname with
  | .ok (pd, ed) => if dateLt pd ed then .ok (pd, ed) else .error .assertionError
  | .error e => .error e

/-! ### Horizon filter (`filter_fnames_by_weeks_ahead`) -/

/-- `filter_fnames_by_weeks_ahead`: keep files with
`abs(days_ahead - 7*weeks_ahead) <= 3`; any parse failure aborts the run. -/
def filter_fnames_by_weeks_ahead (fnames : List String) (weeks_ahead : Int) :
    Except PyError (List String) :=
  match fnames with
  | [] => .ok []
  | f :: rest =>
    match get_dates_from_fname f with
    | .error e => .error e
    | .ok (pd, ed) =>
      match filter_fnames_by_weeks_ahead rest weeks_ahead with
      | .error e => .error e
      | .ok tail =>
        if (daysAhead pd ed - 7 * weeks_ahead).natAbs ≤ 3 then .ok (f :: tail)
        else .ok tail

/-- The per-file keep condition of the horizon filter, as a predicate. -/
def keepFname (w : Int) (f : String) : Bool :=
  match get_dates_from_fname f with
  | .ok (pd, ed) => decide ((daysAhead pd ed - 7 * w).natAbs ≤ 3)
  | .error _ => false

/-! ### Generic sorting (model of `pandas.sort_values` / Python `sorted`) -/

/-- Insert `x` into `l` before the first element `y` with `le x y`. -/
def insertLe {α : Type} (le : α → α → Bool) (x : α) : List α → List α
  | [] => [x]
  | y :: ys => if le x y then x :: y :: ys else y :: insertLe le x ys

/-- Insertion sort by the boolean relation `le`.  Any sorted permutation
models the library sorts involved (their tie order is not relied upon). -/
def sortLe {α : Type} (le : α → α → Bool) : List α → List α
  | [] => []
  | x :: xs => insertLe le x (sortLe le xs)

/-- Lexicographic (code-point) order on char lists: Python `<=` on `str`. -/
def lexLe : List Char → List Char → Bool
  | [], _ => true
  | _ :: _, [] => false
  | a :: as, b :: bs =>
    if a.toNat < b.toNat then true
    else if b.toNat < a.toNat then false
    else lexLe as bs

/-- Python `<=` on strings (used by `sorted`). -/
def strLe (a b : String) : Bool := lexLe a.data b.data

/-- First-occurrence deduplication (Python dict key order). -/
def dedupAux (seen : List String) : List String → List String
  | [] => []
  | x :: xs => if seen.contains x then dedupAux seen xs else x :: dedupAux (x :: seen) xs

/-- Deduplicate keeping the first occurrence of each element. -/
def dedupFirst (l : List String) : List String := dedupAux [] l

/-- Python `l[-n:]`: the last `min n l.length` elements. -/
def takeLast {α : Type} (n : Nat) (l : List α) : List α := l.drop (l.length - n)

/-- Maximum of a rational list (`pandas` column `.max()` with values
present); `none` on the empty list (an all-missing column). -/
def listMax : List ℚ → Option ℚ
  | [] => none
  | x :: xs => some (match listMax xs with | none => x | some m => max x m)

/-! ### The wide table (`pd.DataFrame(col_to_data)` and its processing) -/

/-- A pandas `Series` indexed by model name; `none` entries are `NaN`. -/
abbrev Series := List (String × Option ℚ)

/-- `series[m]`: value at the first index entry equal to `m`. -/
def seriesLookup (s : Series) (m : String) : Option ℚ :=
  match s.find? (fun p => p.1 == m) with
  | none => none
  | some p => p.2

/-- Python dict lookup over an insertion list: the last binding wins. -/
def dictLookup (input : List (String × Series)) (c : String) : Option Series :=
  (input.reverse.find? (fun p => p.1 == c)).map (fun p => p.2)

/-- Entry of the merged frame at row `m`, column `c`. -/
def rawEntry (input : List (String × Series)) (m c : String) : Option ℚ :=
  match dictLookup input c with
  | none => none
  | some s => seriesLookup s m

/-- All model names appearing in some input series, in order of appearance. -/
def allModels (input : List (String × Series)) : List String :=
  input.flatMap (fun p => p.2.map (fun q => q.1))

/-- The wide table: rows are models, columns are per-pair labels. -/
structure WideTable where
  index : List String
  columns : List String
  entry : String → String → Option ℚ

/-- `pd.DataFrame(col_to_data)` followed by `dropna(how='all')` and
`reindex(sorted(columns), axis=1)`: union the series into a wide table,
drop rows missing in every column, sort columns by label. -/
def assemble (input : List (String × Series)) : WideTable :=
  let cols := sortLe strLe (dedupFirst (input.map (fun p => p.1)))
  let models := dedupFirst (allModels input)
  { index := models.filter (fun m => cols.any (fun c => (rawEntry input m c).isSome))
    columns := cols
    entry := rawEntry input }

/-! ### Ranking (`df.abs().rank()`, `fillna(max+1)`, mean rank, reorder) -/

/-- The observed absolute values of column `c` over the table's rows
(the inputs to `df.abs().rank()` for that column). -/
def obsAbs (t : WideTable) (c : String) : List ℚ :=
  t.index.filterMap (fun m => (t.entry m c).map (fun q => |q|))

/-- Average ("fractional") rank of value `x` within the multiset `l`:
`rank(x) = #{y < x} + (#{y = x} + 1) / 2`, rank 1 being the smallest. -/
def rankAvg (l : List ℚ) (x : ℚ) : ℚ :=
  (l.countP (fun y => decide (y < x)) : ℚ) +
    ((l.countP (fun y => decide (y = x)) : ℚ) + 1) / 2

/-- `df.abs().rank()` at row `m`, column `c` (`none` for a missing entry). -/
def colRank (t : WideTable) (c m : String) : Option ℚ :=
  (t.entry m c).map (fun q => rankAvg (obsAbs t c) |q|)

/-- `df.abs().rank().max()` for column `c` (per-column, skipping missing). -/
def maxColRank (t : WideTable) (c : String) : Option ℚ :=
  listMax ((obsAbs t c).map (rankAvg (obsAbs t c)))

/-- `df.abs().rank().fillna(df.abs().rank().max()+1)` at row `m`,
column `c`: a missing entry receives the column's max rank plus 1. -/
def filledRank (t : WideTable) (c m : String) : Option ℚ :=
  match colRank t c m with
  | some r => some r
  | none => (maxColRank t c).map (fun x => x + 1)

/-- `[cols_for_ranking].mean(axis=1)` of the filled ranks at row `m`
(missing columns are skipped; all-missing means `NaN`). -/
def meanRank (t : WideTable) (rcols : List String) (m : String) : Option ℚ :=
  let vals := rcols.filterMap (fun c => filledRank t c m)
  match vals with
  | [] => none
  | _ => some (vals.sum / (vals.length : ℚ))

/-- Ascending order on possibly-missing means: `sort_values` puts NaN last. -/
def optLe : Option ℚ → Option ℚ → Bool
  | some x, some y => decide (x ≤ y)
  | some _, none => true
  | none, some _ => false
  | none, none => true

/-- `df.reindex(mean_ranks.sort_values().index)`: reorder the rows by
ascending mean rank. -/
def reorderByMeanRank (t : WideTable) (rcols : List String) : WideTable :=
  { t with index := sortLe (fun a b => optLe (meanRank t rcols a) (meanRank t rcols b)) t.index }

/-- `[c for c in df.columns if pat in c]`. -/
def colsForRanking (t : WideTable) (pat : String) : List String :=
  t.columns.filter (fun c => strContains c pat)

/-- The ranking window: all ranking columns in weeks-ahead mode, the last 6
(`[-6:]`) in exact-date mode. -/
def rankingWindow (cols : List String) (weeksAheadMode : Bool) : List String :=
  if weeksAheadMode then cols else takeLast 6 cols

/-- The columns the mean rank is taken over for a given input and mode. -/
def rankingCols (input : List (String × Series)) (pat : String)
    (weeksAheadMode : Bool) : List String :=
  rankingWindow (colsForRanking (assemble input) pat) weeksAheadMode

/-- The table merger + ranker: assemble the wide table, then reorder its
rows by mean rank over the ranking window. -/
def mergeAndRank (input : List (String × Series)) (pat : String)
    (weeksAheadMode : Bool) : WideTable :=
  reorderByMeanRank (assemble input) (rankingCols input pat weeksAheadMode)

/-! ### The concrete national / state instantiations -/

/-- The decimal digit characters. -/
def digitChar10 : Nat → Char
  | 0 => '0'
  | 1 => '1'
  | 2 => '2'
  | 3 => '3'
  | 4 => '4'
  | 5 => '5'
  | 6 => '6'
  | 7 => '7'
  | 8 => '8'
  | _ => '9'

/-- Decimal digits of `n`, most significant first (fuel-driven). -/
def natToCharsAux : Nat → Nat → List Char
  | 0, _ => []
  | fuel + 1, n =>
    if n < 10 then [digitChar10 n]
    else natToCharsAux fuel (n / 10) ++ [digitChar10 (n % 10)]

/-- Decimal rendering of a natural number (Python `str(n)`). -/
def natToChars (n : Nat) : List Char := natToCharsAux (n + 1) n

/-- Zero-padded decimal rendering, as in Python's `str(datetime.date)`. -/
def padNat (k n : Nat) : String :=
  String.mk (List.replicate (k - (natToChars n).length) '0' ++ natToChars n)

/-- `str(d)` for a date: ISO `YYYY-MM-DD`. -/
def dateStr (d : Date) : String :=
  padNat 4 d.year ++ "-" ++ padNat 2 d.month ++ "-" ++ padNat 2 d.day

/-- Column label `perc_error_{proj_date}_{eval_date}` of the national table. -/
def usLabel (pd ed : Date) : String :=
  "perc_error_" ++ (dateStr pd ++ "_" ++ dateStr ed)

/-- Column label `mean_abs_error_{proj_date}_{eval_date}`. -/
def absLabel (pd ed : Date) : String :=
  "mean_abs_error_" ++ (dateStr pd ++ "_" ++ dateStr ed)

/-- Column label `mean_sq_abs_error_{proj_date}_{eval_date}`. -/
def sqLabel (pd ed : Date) : String :=
  "mean_sq_abs_error_" ++ (dateStr pd ++ "_" ++ dateStr ed)

/-- A loaded evaluation file: its two dates and the extracted column. -/
abbrev LoadedFile := Date × Date × Series

/-- The national `col_to_data_us` insertion list: percent strings already
turned into numbers, divided by 100. -/
def usInput (files : List LoadedFile) : List (String × Series) :=
  files.map (fun f =>
    (usLabel f.1 f.2.1, f.2.2.map (fun p => (p.1, p.2.map (fun q => q / 100)))))

/-- The state `col_to_data_states` insertion list: the `mean` column of the
absolute-error files, then of the squared-error files. -/
def stateInput (absFiles sqFiles : List LoadedFile) : List (String × Series) :=
  absFiles.map (fun f => (absLabel f.1 f.2.1, f.2.2)) ++
    sqFiles.map (fun f => (sqLabel f.1 f.2.1, f.2.2))

/-! ### Baseline comparator (one state-projection file per pair) -/

/-- A loaded state-projection frame: rows are states (possibly including
the aggregate `US` row), columns carry projections and derived metrics. -/
structure Frame where
  index : List String
  cols : List String
  entry : String → String → Option ℚ

/-- `df_states = df_states[df_states.index != 'US']`. -/
def activeRows (f : Frame) : List String :=
  f.index.filter (fun r => !(r == "US"))

/-- `num_states = len(df_states)` after removing the `US` row. -/
def numStates (f : Frame) : Nat := (activeRows f).length

/-- `model_names`: `Baseline` plus every column containing `-` that is not
a derived `error-` or `beat_baseline-` column. -/
def modelNames (f : Frame) : List String :=
  "Baseline" :: f.cols.filter (fun c =>
    strContains c "-" && !(strContains c "error-") && !(strContains c "beat_baseline-"))

/-- `(~pd.isnull(df_states)).sum().loc[c]`: states with a value in `c`. -/
def numProjections (f : Frame) (c : String) : Nat :=
  ((activeRows f).filter (fun r => (f.entry r c).isSome)).length

/-- `df_states.abs().sum(min_count=1).loc[c]`: sum of the absolute values
of column `c`, `none` when the column has no observed value. -/
def colSum (f : Frame) (c : String) : Option ℚ :=
  match (activeRows f).filterMap (fun r => (f.entry r c).map (fun q => |q|)) with
  | [] => none
  | v :: vs => some ((v :: vs).sum)

/-- Python `int()` truncation toward zero on a rational. -/
def intTrunc (q : ℚ) : Int := Int.tdiv q.num (q.den : Int)

/-- The value stored under `num_states_beat_baseline-<m>`. -/
def beatCountVal (f : Frame) (m : String) : Option ℚ :=
  match colSum f ("beat_baseline-" ++ m) with
  | none => none
  | some q => some ((intTrunc q : Int) : ℚ)

/-- The value stored under `perc_beat_baseline-<m>`. -/
def percVal (f : Frame) (m : String) : Option ℚ :=
  match colSum f ("beat_baseline-" ++ m) with
  | none => none
  | some q => some (q / (numProjections f m : ℚ))

/-- The value stored under `mean_abs_error-<m>`: computed only when every
state has a projection for `m`, otherwise missing. -/
def meanAbsVal (f : Frame) (m : String) : Option ℚ :=
  if numProjections f m == numStates f then
    (colSum f ("error-" ++ m)).map (fun s => s / (numStates f : ℚ))
  else none

/-- The entries inserted into `col_data` for one model. -/
def modelEntries (f : Frame) (m : String) : List (String × Option ℚ) :=
  (if m == "Baseline" then []
   else
    ("num_states_with_projections-" ++ m, some (numProjections f m : ℚ)) ::
      (match colSum f ("beat_baseline-" ++ m) with
       | none =>
         [("num_states_beat_baseline-" ++ m, none), ("perc_beat_baseline-" ++ m, none)]
       | some q =>
         [("num_states_beat_baseline-" ++ m, some ((intTrunc q : Int) : ℚ)),
          ("perc_beat_baseline-" ++ m, some (q / (numProjections f m : ℚ)))])) ++
    [("mean_abs_error-" ++ m, meanAbsVal f m)]

/-- The per-pair `col_data` dict as an insertion list. -/
def colData (f : Frame) : List (String × Option ℚ) :=
  ("num_states", some (numStates f : ℚ)) :: (modelNames f).flatMap (modelEntries f)

/-- Dict / DataFrame lookup in an insertion list with unique keys. -/
def lookupKey (l : List (String × Option ℚ)) (k : String) : Option (Option ℚ) :=
  (l.find? (fun p => p.1 == k)).map (fun p => p.2)

/-! ### Configuration check at the top of `main` -/

/-- Python truthiness of the `weeks_ahead` option: `None` and `0` are falsy. -/
def truthyInt : Option Int → Bool
  | none => false
  | some n => !(n == 0)

/-- Python truthiness of the `eval_date` option: a date is always truthy. -/
def truthyDate : Option Date → Bool
  | none => false
  | some _ => true

/-- Externally visible actions of `main`'s preamble. -/
inductive Event where
  | print
  | makedirs
deriving DecidableEq, Repr

/-- The head of `main`: four prints, the optional `os.makedirs(out_dir)`,
then the two mode asserts.  Returns the events performed before the checks
and the outcome of the checks. -/
def mainEvents (eval_date : Option Date) (weeks_ahead : Option Int)
    (out_dir : Option String) : List Event × Except PyError Unit :=
  let evs := [Event.print, Event.print, Event.print, Event.print] ++
    (if out_dir.isSome then [Event.makedirs] else [])
  if truthyDate eval_date || truthyInt weeks_ahead then
    if !(truthyDate eval_date && truthyInt weeks_ahead) then (evs, .ok ())
    else (evs, .error .assertionError)
  else (evs, .error .assertionError)

/-! ### Concrete example data used by witnesses and counterexamples -/

/-- A two-row table: model `A` observed in column `c1`, `B` not. -/
def exRankT : WideTable :=
  { index := ["A", "B"]
    columns := ["c1"]
    entry := fun m c => if m == "A" && c == "c1" then some 1 else none }

/-- A two-column national-style input (the spec's §8 example, scaled):
model `A` has the larger errors in both columns. -/
def exInput : List (String × Series) :=
  [("perc_error_a", [("A", some 10), ("B", some 5)]),
   ("perc_error_b", [("A", some 20), ("B", some 1)])]

/-- One state absolute-error file. -/
def exAbsF : List LoadedFile := [(⟨2020, 11, 1⟩, ⟨2020, 12, 1⟩, [("A", some 1)])]

/-- One state squared-error file for the same pair. -/
def exSqF : List LoadedFile := [(⟨2020, 11, 1⟩, ⟨2020, 12, 1⟩, [("A", some 1)])]

/-- A frame where both states project for model `A-B` but its `error-A-B`
column holds a negative and a positive entry. -/
def exF6 : Frame :=
  { index := ["AK", "AL"]
    cols := ["A-B", "error-A-B"]
    entry := fun r c =>
      if c == "A-B" then some 1
      else if r == "AK" && c == "error-A-B" then some (-3)
      else if r == "AL" && c == "error-A-B" then some 1
      else none }

/-- A frame where model `A-B` has a projection but its `beat_baseline-A-B`
column is entirely missing. -/
def exF7 : Frame :=
  { index := ["AK"]
    cols := ["A-B", "beat_baseline-A-B", "error-A-B"]
    entry := fun r c =>
      if r == "AK" && (c == "A-B" || c == "error-A-B") then some 1 else none }

end SummarizeEvaluations

deriving instance DecidableEq for Except

namespace SummarizeEvaluations

/-! ### Generic lemmas about the helper functions -/

theorem mem_insertLe {α : Type} (le : α → α → Bool) (x a : α) (l : List α) :
    a ∈ insertLe le x l ↔ a = x ∨ a ∈ l := by
  induction l with
  | nil => simp [insertLe]
  | cons y ys ih =>
    simp only [insertLe]
    split
    · simp [List.mem_cons]
    · simp only [List.mem_cons, ih]
      tauto

theorem pairwise_insertLe {α : Type} (le : α → α → Bool)
    (htot : ∀ a b, le a b = true ∨ le b a = true)
    (htrans : ∀ a b c, le a b = true → le b c = true → le a c = true)
    (x : α) (l : List α) (h : l.Pairwise (fun a b => le a b = true)) :
    (insertLe le x l).Pairwise (fun a b => le a b = true) := by
  induction l with
  | nil => simp [insertLe]
  | cons y ys ih =>
    rcases List.pairwise_cons.mp h with ⟨hy, hys⟩
    simp only [insertLe]
    split
    case isTrue hxy =>
      refine List.pairwise_cons.mpr ⟨?_, h⟩
      intro b hb
      rcases List.mem_cons.mp hb with rfl | hb
      · exact hxy
      · exact htrans x y b hxy (hy b hb)
    case isFalse hxy =>
      have hyx : le y x = true := by
        rcases htot x y with h1 | h1
        · exact absurd h1 hxy
        · exact h1
      refine List.pairwise_cons.mpr ⟨?_, ih hys⟩
      intro b hb
      rcases (mem_insertLe le x b ys).mp hb with rfl | hb
      · exact hyx
      · exact hy b hb

theorem pairwise_sortLe {α : Type} (le : α → α → Bool)
    (htot : ∀ a b, le a b = true ∨ le b a = true)
    (htrans : ∀ a b c, le a b = true → le b c = true → le a c = true)
    (l : List α) : (sortLe le l).Pairwise (fun a b => le a b = true) := by
  induction l with
  | nil => simp [sortLe]
  | cons x xs ih => exact pairwise_insertLe le htot htrans x _ ih

theorem mem_sortLe {α : Type} (le : α → α → Bool) (a : α) (l : List α) :
    a ∈ sortLe le l ↔ a ∈ l := by
  induction l with
  | nil => simp [sortLe]
  | cons x xs ih =>
    simp only [sortLe, mem_insertLe, List.mem_cons, ih]

theorem listMax_eq_none_iff (l : List ℚ) : listMax l = none ↔ l = [] := by
  cases l <;> simp [listMax]

theorem le_listMax (l : List ℚ) (a : ℚ) (ha : a ∈ l) :
    ∃ M, listMax l = some M ∧ a ≤ M := by
  induction l with
  | nil => cases ha
  | cons x xs ih =>
    cases hx : listMax xs with
    | none =>
      have hxs : xs = [] := (listMax_eq_none_iff xs).mp hx
      subst hxs
      rcases List.mem_singleton.mp ha with rfl
      exact ⟨a, by simp [listMax], le_refl a⟩
    | some m =>
      refine ⟨max x m, by simp [listMax, hx], ?_⟩
      rcases List.mem_cons.mp ha with rfl | hmem
      · exact le_max_left _ _
      · obtain ⟨M', hM', haM'⟩ := ih hmem
        rw [hx] at hM'
        cases hM'
        exact le_trans haM' (le_max_right _ _)

theorem optLe_refl (a : Option ℚ) : optLe a a = true := by
  cases a <;> simp [optLe]

theorem optLe_total (a b : Option ℚ) : optLe a b = true ∨ optLe b a = true := by
  cases a <;> cases b <;> simp [optLe]
  exact le_total _ _

theorem optLe_trans (a b c : Option ℚ) (h1 : optLe a b = true) (h2 : optLe b c = true) :
    optLe a c = true := by
  cases a <;> cases b <;> cases c <;> simp [optLe] at h1 h2 ⊢
  exact le_trans h1 h2

theorem lexLe_total (a : List Char) : ∀ b, lexLe a b = true ∨ lexLe b a = true := by
  induction a with
  | nil => intro b; left; simp [lexLe]
  | cons x xs ih =>
    intro b
    cases b with
    | nil => right; simp [lexLe]
    | cons y ys =>
      by_cases h1 : x.toNat < y.toNat
      · left; simp [lexLe, h1]
      · by_cases h2 : y.toNat < x.toNat
        · right; simp [lexLe, h1, h2]
        · simpa [lexLe, h1, h2] using ih ys

theorem lexLe_trans (a : List Char) :
    ∀ b c, lexLe a b = true → lexLe b c = true → lexLe a c = true := by
  induction a with
  | nil => intro b c _ _; simp [lexLe]
  | cons x xs ih =>
    intro b c hab hbc
    match b, c with
    | [], _ => simp [lexLe] at hab
    | _ :: _, [] => simp [lexLe] at hbc
    | y :: ys, z :: zs =>
      simp only [lexLe] at hab hbc ⊢
      by_cases h1 : x.toNat < y.toNat
      · by_cases h2 : y.toNat < z.toNat
        · rw [if_pos (show x.toNat < z.toNat by omega)]
        · rw [if_neg h2] at hbc
          by_cases h3 : z.toNat < y.toNat
          · rw [if_pos h3] at hbc; cases hbc
          · rw [if_pos (show x.toNat < z.toNat by omega)]
      · rw [if_neg h1] at hab
        by_cases h2 : y.toNat < x.toNat
        · rw [if_pos h2] at hab; cases hab
        · rw [if_neg h2] at hab
          by_cases h3 : y.toNat < z.toNat
          · rw [if_pos (show x.toNat < z.toNat by omega)]
          · rw [if_neg h3] at hbc
            by_cases h4 : z.toNat < y.toNat
            · rw [if_pos h4] at hbc; cases hbc
            · rw [if_neg h4] at hbc
              rw [if_neg (show ¬ x.toNat < z.toNat by omega),
                if_neg (show ¬ z.toNat < x.toNat by omega)]
              exact ih ys zs hab hbc

theorem strLe_total (a b : String) : strLe a b = true ∨ strLe b a = true :=
  lexLe_total a.data b.data

theorem strLe_trans (a b c : String) (h1 : strLe a b = true) (h2 : strLe b c = true) :
    strLe a c = true :=
  lexLe_trans a.data b.data c.data h1 h2

theorem mem_dedupAux (l : List String) :
    ∀ (seen : List String) (x : String), x ∈ dedupAux seen l ↔ x ∈ l ∧ x ∉ seen := by
  induction l with
  | nil => intro seen x; simp [dedupAux]
  | cons y ys ih =>
    intro seen x
    simp only [dedupAux]
    split
    case isTrue h =>
      have hy : y ∈ seen := by
        have := List.elem_iff.mp h
        exact this
      rw [ih]
      simp only [List.mem_cons]
      constructor
      · rintro ⟨hx, hns⟩
        exact ⟨Or.inr hx, hns⟩
      · rintro ⟨hx | hx, hns⟩
        · exact absurd (hx ▸ hy) hns
        · exact ⟨hx, hns⟩
    case isFalse h =>
      have hy : y ∉ seen := fun hmem => h (List.elem_iff.mpr hmem)
      rw [List.mem_cons, ih (y :: seen)]
      constructor
      · rintro (rfl | ⟨hx, hns⟩)
        · exact ⟨List.mem_cons_self _ _, hy⟩
        · exact ⟨List.mem_cons_of_mem _ hx, fun hm => hns (List.mem_cons_of_mem _ hm)⟩
      · rintro ⟨hxl, hns⟩
        rcases List.mem_cons.mp hxl with rfl | hx
        · exact Or.inl rfl
        · by_cases hxy : x = y
          · exact Or.inl hxy
          · refine Or.inr ⟨hx, fun hm => ?_⟩
            rcases List.mem_cons.mp hm with h' | h'
            · exact hxy h'
            · exact hns h'

theorem mem_dedupFirst (l : List String) (x : String) : x ∈ dedupFirst l ↔ x ∈ l := by
  simp [dedupFirst, mem_dedupAux]

theorem mem_takeLast {α : Type} (n : Nat) (l : List α) (x : α) (h : x ∈ takeLast n l) :
    x ∈ l :=
  List.drop_subset _ l h

/-! ### C4: the horizon filter -/

theorem keepFname_iff (w : Int) (f : String) :
    keepFname w f = true ↔
      ∃ pd ed, get_dates_from_fname f = .ok (pd, ed) ∧
        (daysAhead pd ed - 7 * w).natAbs ≤ 3 := by
  unfold keepFname
  cases h : get_dates_from_fname f with
  | error e => simp
  | ok p =>
    obtain ⟨pd, ed⟩ := p
    simp only [decide_eq_true_eq]
    constructor
    · intro hc
      exact ⟨pd, ed, rfl, hc⟩
    · rintro ⟨pd', ed', heq, hc⟩
      cases heq
      exact hc

theorem filter_fnames_eq_filter (w : Int) (fnames : List String) :
    ∀ out, filter_fnames_by_weeks_ahead fnames w = .ok out →
      out = fnames.filter (keepFname w) := by
  induction fnames with
  | nil =>
    intro out h
    simp only [filter_fnames_by_weeks_ahead] at h
    cases h
    simp
  | cons f rest ih =>
    intro out h
    simp only [filter_fnames_by_weeks_ahead] at h
    cases hd : get_dates_from_fname f with
    | error e => simp [hd] at h
    | ok p =>
      obtain ⟨pd, ed⟩ := p
      simp only [hd] at h
      cases hr : filter_fnames_by_weeks_ahead rest w with
      | error e => simp [hr] at h
      | ok tail =>
        simp only [hr] at h
        have htail := ih tail hr
        have hkeep : keepFname w f = decide ((daysAhead pd ed - 7 * w).natAbs ≤ 3) := by
          unfold keepFname
          rw [hd]
        by_cases hc : (daysAhead pd ed - 7 * w).natAbs ≤ 3
        · rw [if_pos hc] at h
          cases h
          rw [List.filter_cons, hkeep]
          simp [hc, htail]
        · rw [if_neg hc] at h
          cases h
          rw [List.filter_cons, hkeep]
          simp [hc, htail]

/-- C4: the horizon filter keeps a file iff `|days_ahead − 7·weeks_ahead| ≤ 3`
where `days_ahead = eval_date − proj_date` in days; exact multiples and a
3-day deviation are kept, 4 or more days are excluded, and the output is a
sublist of the input (relative order preserved). -/
theorem horizon_filter_spec (fnames : List String) (w : Int) (out : List String)
    (h : filter_fnames_by_weeks_ahead fnames w = .ok out) :
    out = fnames.filter (keepFname w)
    ∧ out.Sublist fnames
    ∧ (∀ f, f ∈ out ↔ f ∈ fnames ∧
        ∃ pd ed, get_dates_from_fname f = .ok (pd, ed) ∧
          (daysAhead pd ed - 7 * w).natAbs ≤ 3)
    ∧ (∀ f pd ed, f ∈ fnames → get_dates_from_fname f = .ok (pd, ed) →
        ((daysAhead pd ed = 7 * w → f ∈ out)
         ∧ ((daysAhead pd ed - 7 * w).natAbs = 3 → f ∈ out)
         ∧ (4 ≤ (daysAhead pd ed - 7 * w).natAbs → f ∉ out))) := by
  have heq := filter_fnames_eq_filter w fnames out h
  have hmem : ∀ f, f ∈ out ↔ f ∈ fnames ∧
      ∃ pd ed, get_dates_from_fname f = .ok (pd, ed) ∧
        (daysAhead pd ed - 7 * w).natAbs ≤ 3 := by
    intro f
    rw [heq, List.mem_filter, keepFname_iff]
  refine ⟨heq, heq ▸ List.filter_sublist fnames, hmem, ?_⟩
  intro f pd ed hf hd
  refine ⟨?_, ?_, ?_⟩
  · intro hexact
    exact (hmem f).mpr ⟨hf, pd, ed, hd, by rw [hexact]; simp⟩
  · intro h3
    exact (hmem f).mpr ⟨hf, pd, ed, hd, by omega⟩
  · intro h4 hmem'
    obtain ⟨_, pd', ed', hd', hle⟩ := (hmem f).mp hmem'
    rw [hd] at hd'
    cases hd'
    omega

/-- Witness for C4 at a concrete input: a 28-day file is kept for
`weeks_ahead = 4` and a 21-day file is dropped. -/
theorem horizon_filter_spec_witness :
    (["2020-11-01_2020-11-29_us_errs.csv"] : List String) =
      (["2020-11-01_2020-11-29_us_errs.csv",
        "2020-11-01_2020-11-22_us_errs.csv"] : List String).filter (keepFname 4) :=
  (horizon_filter_spec _ 4 _ (by decide)).1

/-! ### C5: the filename parser -/

theorem filter_error_of_mem (w : Int) (fnames : List String) (f : String) (e' : PyError)
    (hf : f ∈ fnames) (he : get_dates_from_fname f = .error e') :
    ∃ e, filter_fnames_by_weeks_ahead fnames w = .error e := by
  induction fnames with
  | nil => cases hf
  | cons g rest ih =>
    simp only [filter_fnames_by_weeks_ahead]
    cases hg : get_dates_from_fname g with
    | error e => exact ⟨e, rfl⟩
    | ok p =>
      obtain ⟨pd, ed⟩ := p
      have hfr : f ∈ rest := by
        rcases List.mem_cons.mp hf with rfl | hmem
        · rw [he] at hg; cases hg
        · exact hmem
      obtain ⟨e, hrec⟩ := ih hfr
      rw [hrec]
      exact ⟨e, rfl⟩

/-- C5: the parser tries layout A (tokens 0 and 1) first and falls back to
layout B (tokens 1 and 2) exactly when layout A fails with a date-parse
(`ValueError`) failure; every returned pair satisfies
`eval_date > proj_date`; a parsed pair violating the ordering is a fatal
assertion error, and a violating file in a filtered list aborts the whole
run instead of being skipped. -/
theorem fname_parser_spec (fname : String) :
    (∀ pd ed, get_dates_from_fname fname = .ok (pd, ed) → dateLt pd ed = true)
    ∧ (∀ pd ed, tryLayoutA (tokensOf fname) = .ok (pd, ed) →
        rawDates fname = .ok (pd, ed))
    ∧ (tryLayoutA (tokensOf fname) = .error .valueError →
        rawDates fname = tryLayoutB (tokensOf fname))
    ∧ (∀ pd ed, rawDates fname = .ok (pd, ed) → dateLt pd ed = false →
        get_dates_from_fname fname = .error .assertionError)
    ∧ (∀ fnames w pd ed, fname ∈ fnames → rawDates fname = .ok (pd, ed) →
        dateLt pd ed = false →
        ∃ e, filter_fnames_by_weeks_ahead fnames w = .error e) := by
  have hassert : ∀ pd ed, rawDates fname = .ok (pd, ed) → dateLt pd ed = false →
      get_dates_from_fname fname = .error .assertionError := by
    intro pd ed hraw hlt
    simp [get_dates_from_fname, hraw, hlt]
  refine ⟨?_, ?_, ?_, hassert, ?_⟩
  · intro pd ed h
    unfold get_dates_from_fname at h
    cases hraw : rawDates fname with
    | error e => simp [hraw] at h
    | ok p =>
      obtain ⟨pd', ed'⟩ := p
      simp only [hraw] at h
      by_cases hlt : dateLt pd' ed' = true
      · rw [if_pos hlt] at h
        simp only [Except.ok.injEq, Prod.mk.injEq] at h
        obtain ⟨rfl, rfl⟩ := h
        exact hlt
      · rw [if_neg hlt] at h
        simp at h
  · intro pd ed hA
    unfold rawDates
    rw [hA]
  · intro hA
    unfold rawDates
    rw [hA]
  · intro fnames w pd ed hmem hraw hlt
    exact filter_error_of_mem w fnames fname .assertionError hmem (hassert pd ed hraw hlt)

/-! ### C1: missing entries get the per-column worst rank plus one -/

/-- C1: in the rank matrix used for the mean-rank ordering, a model with a
missing entry in a column is assigned that column's maximum observed rank
plus 1, strictly above the rank of every model observed in that column; the
fill value is per column. -/
theorem rank_fill_spec (t : WideTable) (c m : String)
    (_hm : m ∈ t.index) (hmiss : t.entry m c = none)
    (hobs : ∃ m', m' ∈ t.index ∧ (t.entry m' c).isSome = true) :
    ∃ M, maxColRank t c = some M
      ∧ filledRank t c m = some (M + 1)
      ∧ ∀ m' r, m' ∈ t.index → colRank t c m' = some r → r < M + 1 := by
  obtain ⟨m', hm', hsome⟩ := hobs
  obtain ⟨q, hq⟩ := Option.isSome_iff_exists.mp hsome
  have hqmem : |q| ∈ obsAbs t c :=
    List.mem_filterMap.mpr ⟨m', hm', by rw [hq]; rfl⟩
  have hrmem : rankAvg (obsAbs t c) |q| ∈ (obsAbs t c).map (rankAvg (obsAbs t c)) :=
    List.mem_map.mpr ⟨|q|, hqmem, rfl⟩
  obtain ⟨M, hM, _⟩ := le_listMax _ _ hrmem
  have hmax : maxColRank t c = some M := hM
  refine ⟨M, hmax, ?_, ?_⟩
  · unfold filledRank colRank
    rw [hmiss]
    simp [hmax]
  · intro m'' r hm'' hr
    unfold colRank at hr
    cases hq'' : t.entry m'' c with
    | none => rw [hq''] at hr; cases hr
    | some q'' =>
      rw [hq''] at hr
      simp only [Option.map_some', Option.some.injEq] at hr
      subst hr
      have hq''mem : |q''| ∈ obsAbs t c :=
        List.mem_filterMap.mpr ⟨m'', hm'', by rw [hq'']; rfl⟩
      have hrm : rankAvg (obsAbs t c) |q''| ∈ (obsAbs t c).map (rankAvg (obsAbs t c)) :=
        List.mem_map.mpr ⟨|q''|, hq''mem, rfl⟩
      obtain ⟨M', hM', hle⟩ := le_listMax _ _ hrm
      have heqM : maxColRank t c = some M' := hM'
      rw [hmax] at heqM
      injection heqM with hMM
      rw [← hMM] at hle
      linarith

/-- Witness for C1: in `exRankT` the missing model `B` gets the fill rank
`max observed rank + 1`, above the rank of the observed model `A`. -/
theorem rank_fill_spec_witness :
    ∃ M, maxColRank exRankT "c1" = some M
      ∧ filledRank exRankT "c1" "B" = some (M + 1)
      ∧ ∀ m' r, m' ∈ exRankT.index → colRank exRankT "c1" m' = some r → r < M + 1 :=
  rank_fill_spec exRankT "c1" "B" (by decide) (by decide) ⟨"A", by decide, by decide⟩

/-! ### C2: rows are reordered by ascending mean rank -/

/-- C2: after the merger + ranker reorders a wide table, the first row's
mean rank over the ranking window is least (in the NaN-last order) among
all retained models. -/
theorem mean_rank_order_spec (input : List (String × Series)) (pat : String)
    (mode : Bool) (m0 : String) (rest : List String)
    (hidx : (mergeAndRank input pat mode).index = m0 :: rest) :
    ∀ m, m ∈ (mergeAndRank input pat mode).index →
      optLe (meanRank (assemble input) (rankingCols input pat mode) m0)
        (meanRank (assemble input) (rankingCols input pat mode) m) = true := by
  have hp : ((mergeAndRank input pat mode).index).Pairwise
      (fun a b => optLe (meanRank (assemble input) (rankingCols input pat mode) a)
        (meanRank (assemble input) (rankingCols input pat mode) b) = true) :=
    pairwise_sortLe
      (fun a b => optLe (meanRank (assemble input) (rankingCols input pat mode) a)
        (meanRank (assemble input) (rankingCols input pat mode) b))
      (fun a b => optLe_total _ _) (fun a b c => optLe_trans _ _ _)
      ((assemble input).index)
  rw [hidx] at hp
  intro m hm
  rw [hidx] at hm
  rcases List.mem_cons.mp hm with rfl | hm
  · exact optLe_refl _
  · exact (List.pairwise_cons.mp hp).1 m hm

/-- Witness for C2: on `exInput` the reordered table starts with `B`, whose
mean rank is below `A`'s. -/
theorem mean_rank_order_spec_witness :
    optLe (meanRank (assemble exInput) (rankingCols exInput "perc_error" true) "B")
      (meanRank (assemble exInput) (rankingCols exInput "perc_error" true) "A") = true := by
  have hR : rankingCols exInput "perc_error" true = ["perc_error_a", "perc_error_b"] := by
    decide
  have hidxT : (assemble exInput).index = ["A", "B"] := by decide
  have hoa : obsAbs (assemble exInput) "perc_error_a" = [|(10 : ℚ)|, |(5 : ℚ)|] := rfl
  have hob : obsAbs (assemble exInput) "perc_error_b" = [|(20 : ℚ)|, |(1 : ℚ)|] := rfl
  have hcrAa : colRank (assemble exInput) "perc_error_a" "A" = some 2 := by
    rw [show colRank (assemble exInput) "perc_error_a" "A"
        = some (rankAvg (obsAbs (assemble exInput) "perc_error_a") |(10 : ℚ)|) from rfl, hoa]
    norm_num [rankAvg, List.countP_cons, List.countP_nil]
  have hcrAb : colRank (assemble exInput) "perc_error_b" "A" = some 2 := by
    rw [show colRank (assemble exInput) "perc_error_b" "A"
        = some (rankAvg (obsAbs (assemble exInput) "perc_error_b") |(20 : ℚ)|) from rfl, hob]
    norm_num [rankAvg, List.countP_cons, List.countP_nil]
  have hcrBa : colRank (assemble exInput) "perc_error_a" "B" = some 1 := by
    rw [show colRank (assemble exInput) "perc_error_a" "B"
        = some (rankAvg (obsAbs (assemble exInput) "perc_error_a") |(5 : ℚ)|) from rfl, hoa]
    norm_num [rankAvg, List.countP_cons, List.countP_nil]
  have hcrBb : colRank (assemble exInput) "perc_error_b" "B" = some 1 := by
    rw [show colRank (assemble exInput) "perc_error_b" "B"
        = some (rankAvg (obsAbs (assemble exInput) "perc_error_b") |(1 : ℚ)|) from rfl, hob]
    norm_num [rankAvg, List.countP_cons, List.countP_nil]
  have hfAa : filledRank (assemble exInput) "perc_error_a" "A" = some 2 := by
    simp only [filledRank, hcrAa]
  have hfAb : filledRank (assemble exInput) "perc_error_b" "A" = some 2 := by
    simp only [filledRank, hcrAb]
  have hfBa : filledRank (assemble exInput) "perc_error_a" "B" = some 1 := by
    simp only [filledRank, hcrBa]
  have hfBb : filledRank (assemble exInput) "perc_error_b" "B" = some 1 := by
    simp only [filledRank, hcrBb]
  have hmA : meanRank (assemble exInput) (rankingCols exInput "perc_error" true) "A"
      = some 2 := by
    simp only [meanRank, hR, List.filterMap_cons, List.filterMap_nil, hfAa, hfAb]
    norm_num
  have hmB : meanRank (assemble exInput) (rankingCols exInput "perc_error" true) "B"
      = some 1 := by
    simp only [meanRank, hR, List.filterMap_cons, List.filterMap_nil, hfBa, hfBb]
    norm_num
  have hcmp : optLe
      (meanRank (assemble exInput) (rankingCols exInput "perc_error" true) "A")
      (meanRank (assemble exInput) (rankingCols exInput "perc_error" true) "B") = false := by
    rw [hmA, hmB]
    norm_num [optLe]
  have hidx : (mergeAndRank exInput "perc_error" true).index = "B" :: ["A"] := by
    show sortLe
      (fun a b => optLe (meanRank (assemble exInput) (rankingCols exInput "perc_error" true) a)
        (meanRank (assemble exInput) (rankingCols exInput "perc_error" true) b))
      (assemble exInput).index = "B" :: ["A"]
    rw [hidxT]
    simp only [sortLe, insertLe, hcmp]
    simp
  exact mean_rank_order_spec exInput "perc_error" true "B" ["A"] hidx "A"
    (by rw [hidx]; simp)

/-! ### C9: the assembled wide table's invariant -/

theorem mem_allModels_of_rawEntry (input : List (String × Series)) (m c : String)
    (h : (rawEntry input m c).isSome = true) : m ∈ allModels input := by
  unfold rawEntry at h
  cases hd : dictLookup input c with
  | none => simp only [hd, Option.isSome_none] at h; exact Bool.noConfusion h
  | some s =>
    simp only [hd] at h
    unfold seriesLookup at h
    cases hf : s.find? (fun p => p.1 == m) with
    | none => simp only [hf, Option.isSome_none] at h; exact Bool.noConfusion h
    | some p =>
      have hbeq := List.find?_some hf
      have hpm : p.1 = m := eq_of_beq hbeq
      have hps : p ∈ s := List.mem_of_find?_eq_some hf
      unfold dictLookup at hd
      cases hfr : input.reverse.find? (fun pr => pr.1 == c) with
      | none => rw [hfr] at hd; simp at hd
      | some pr =>
        rw [hfr] at hd
        simp only [Option.map_some', Option.some.injEq] at hd
        have hprin : pr ∈ input := List.mem_reverse.mp (List.mem_of_find?_eq_some hfr)
        refine List.mem_flatMap.mpr ⟨pr, hprin, ?_⟩
        exact List.mem_map.mpr ⟨p, by rw [hd]; exact hps, hpm⟩

/-- C9: after merging and before reordering, the wide table's columns are
sorted lexicographically, and a model row is present iff at least one of
its columns holds a non-missing value. -/
theorem assemble_invariant_spec (input : List (String × Series)) :
    ((assemble input).columns.Pairwise (fun a b => strLe a b = true))
    ∧ (∀ m, m ∈ (assemble input).index ↔
        ∃ c, c ∈ (assemble input).columns ∧ ((assemble input).entry m c).isSome = true) := by
  constructor
  · exact pairwise_sortLe strLe strLe_total strLe_trans _
  · intro m
    constructor
    · intro hmem
      rcases List.mem_filter.mp hmem with ⟨_, hany⟩
      rcases List.any_eq_true.mp hany with ⟨c, hc, hsome⟩
      exact ⟨c, hc, hsome⟩
    · rintro ⟨c, hc, hsome⟩
      refine List.mem_filter.mpr ⟨?_, List.any_eq_true.mpr ⟨c, hc, hsome⟩⟩
      rw [mem_dedupFirst]
      exact mem_allModels_of_rawEntry input m c hsome

/-- Witness for C5: a well-formed layout-A file yields ordered dates, and a
file with reversed dates aborts a filter run. -/
theorem fname_parser_spec_witness :
    dateLt ⟨2020, 11, 1⟩ ⟨2020, 11, 29⟩ = true ∧
    ∃ e, filter_fnames_by_weeks_ahead
        ["2020-12-01_2020-11-01_us_errs.csv"] 4 = .error e :=
  ⟨(fname_parser_spec "2020-11-01_2020-11-29_us_errs.csv").1 ⟨2020, 11, 1⟩ ⟨2020, 11, 29⟩
      (by decide),
   (fname_parser_spec "2020-12-01_2020-11-01_us_errs.csv").2.2.2.2
      ["2020-12-01_2020-11-01_us_errs.csv"] 4 ⟨2020, 12, 1⟩ ⟨2020, 11, 1⟩
      (by simp) (by decide) (by decide)⟩

/-! ### C3: the ranking window (corrected) -/

theorem isPrefixL_append (p l : List Char) : isPrefixL p (p ++ l) = true := by
  induction p with
  | nil => rfl
  | cons c cs ih => simp [isPrefixL, ih]

theorem containsL_of_isPrefixL (p s : List Char) (h : isPrefixL p s = true) :
    containsL p s = true := by
  cases s with
  | nil => simpa [containsL] using h
  | cons c cs => simp [containsL, h]

/-- Python `pat in (pat + rest)` holds. -/
theorem strContains_append_self (pat rest : String) :
    strContains (pat ++ rest) pat = true := by
  unfold strContains
  rw [String.data_append]
  exact containsL_of_isPrefixL _ _ (isPrefixL_append _ _)

theorem usLabel_contains (pd ed : Date) :
    strContains (usLabel pd ed) "perc_error" = true := by
  unfold usLabel
  rw [show ("perc_error_" : String) = "perc_error" ++ "_" from rfl, String.append_assoc]
  exact strContains_append_self _ _

theorem absLabel_contains (pd ed : Date) :
    strContains (absLabel pd ed) "mean_abs_error" = true := by
  unfold absLabel
  rw [show ("mean_abs_error_" : String) = "mean_abs_error" ++ "_" from rfl,
    String.append_assoc]
  exact strContains_append_self _ _

/-- Searching for `mean_abs_error` never matches inside the concrete prefix
`mean_sq_abs_error_`: the search passes over it. -/
theorem containsL_skip_sq (dd : List Char) :
    containsL "mean_abs_error".data ("mean_sq_abs_error_".data ++ dd)
      = containsL "mean_abs_error".data dd := rfl

theorem isPrefixL_head_false (p c : Char) (ps cs : List Char) (h : (p == c) = false) :
    isPrefixL (p :: ps) (c :: cs) = false := by
  simp [isPrefixL, h]

/-- `mean_abs_error` cannot occur in a string with no letter `m`. -/
theorem containsL_no_m (dd : List Char) (h : ∀ c ∈ dd, (c == 'm') = false) :
    containsL "mean_abs_error".data dd = false := by
  induction dd with
  | nil => rfl
  | cons c cs ih =>
    have hc := h c (List.mem_cons_self c cs)
    have hmc : ('m' == c) = false := by
      cases hb : ('m' == c)
      · rfl
      · have hbc : 'm' = c := eq_of_beq hb
        rw [← hbc] at hc
        simp at hc
    have hrec := ih (fun x hx => h x (List.mem_cons_of_mem c hx))
    show (isPrefixL "mean_abs_error".data (c :: cs)
        || containsL "mean_abs_error".data cs) = false
    rw [hrec, show ("mean_abs_error".data : List Char) = 'm' :: "ean_abs_error".data
        from rfl, isPrefixL_head_false 'm' c _ _ hmc]
    rfl

theorem digitChar10_not_m (k : Nat) : (digitChar10 k == 'm') = false := by
  unfold digitChar10
  split <;> rfl

theorem natToCharsAux_not_m (fuel : Nat) :
    ∀ n c, c ∈ natToCharsAux fuel n → (c == 'm') = false := by
  induction fuel with
  | zero => intro n c hc; simp [natToCharsAux] at hc
  | succ fuel ih =>
    intro n c hc
    simp only [natToCharsAux] at hc
    split at hc
    · rcases List.mem_singleton.mp hc with rfl
      exact digitChar10_not_m n
    · rcases List.mem_append.mp hc with h | h
      · exact ih _ c h
      · rcases List.mem_singleton.mp h with rfl
        exact digitChar10_not_m _

theorem padNat_not_m (k n : Nat) : ∀ c ∈ (padNat k n).data, (c == 'm') = false := by
  intro c hc
  have hc' : c ∈ List.replicate (k - (natToChars n).length) '0' ++ natToChars n := hc
  rcases List.mem_append.mp hc' with h | h
  · rcases List.eq_of_mem_replicate h with rfl
    rfl
  · exact natToCharsAux_not_m _ _ c h

theorem dateStr_not_m (d : Date) : ∀ c ∈ (dateStr d).data, (c == 'm') = false := by
  intro c hc
  unfold dateStr at hc
  simp only [String.data_append] at hc
  rcases List.mem_append.mp hc with h | h
  · rcases List.mem_append.mp h with h | h
    · rcases List.mem_append.mp h with h | h
      · rcases List.mem_append.mp h with h | h
        · exact padNat_not_m _ _ c h
        · rcases List.mem_singleton.mp h with rfl
          rfl
      · exact padNat_not_m _ _ c h
    · rcases List.mem_singleton.mp h with rfl
      rfl
  · exact padNat_not_m _ _ c h

theorem sqLabel_not_contains (pd ed : Date) :
    strContains (sqLabel pd ed) "mean_abs_error" = false := by
  unfold strContains sqLabel
  rw [String.data_append, containsL_skip_sq]
  apply containsL_no_m
  intro c hc
  simp only [String.data_append] at hc
  rcases List.mem_append.mp hc with h | h
  · rcases List.mem_append.mp h with h | h
    · exact dateStr_not_m _ c h
    · rcases List.mem_singleton.mp h with rfl
      rfl
  · exact dateStr_not_m _ c h

theorem usInput_labels (files : List LoadedFile) :
    (usInput files).map (fun p => p.1) = files.map (fun f => usLabel f.1 f.2.1) := by
  simp [usInput]

theorem stateInput_labels (absF sqF : List LoadedFile) :
    (stateInput absF sqF).map (fun p => p.1)
      = absF.map (fun f => absLabel f.1 f.2.1) ++ sqF.map (fun f => sqLabel f.1 f.2.1) := by
  simp only [stateInput, List.map_append, List.map_map]
  rfl

theorem usRanking_cols (files : List LoadedFile) :
    colsForRanking (assemble (usInput files)) "perc_error"
      = (assemble (usInput files)).columns := by
  unfold colsForRanking
  apply List.filter_eq_self.mpr
  intro c hc
  have hc2 : c ∈ dedupFirst ((usInput files).map (fun p => p.1)) :=
    (mem_sortLe strLe c _).mp hc
  have hc3 : c ∈ (usInput files).map (fun p => p.1) := (mem_dedupFirst _ _).mp hc2
  rw [usInput_labels] at hc3
  obtain ⟨f, _, rfl⟩ := List.mem_map.mp hc3
  exact usLabel_contains _ _

/-- C3 amended: the national branch (whose column labels all contain
`perc_error`) ranks over all columns in weeks-ahead mode and the last 6 in
exact-date mode; the state branch ranks only over columns containing
`mean_abs_error`, so its squared-error columns, although part of the wide
table, are never ranking columns. -/
theorem ranking_window_spec (files absF sqF : List LoadedFile) (mode : Bool) :
    (rankingCols (usInput files) "perc_error" mode
       = (if mode then (assemble (usInput files)).columns
          else takeLast 6 (assemble (usInput files)).columns))
    ∧ (∀ pd ed, strContains (absLabel pd ed) "mean_abs_error" = true
        ∧ strContains (sqLabel pd ed) "mean_abs_error" = false)
    ∧ (∀ pd ed s, (pd, ed, s) ∈ sqF →
        sqLabel pd ed ∈ (assemble (stateInput absF sqF)).columns
        ∧ sqLabel pd ed ∉ rankingCols (stateInput absF sqF) "mean_abs_error" mode) := by
  refine ⟨?_, ?_, ?_⟩
  · unfold rankingCols
    rw [usRanking_cols]
    rfl
  · intro pd ed
    exact ⟨absLabel_contains pd ed, sqLabel_not_contains pd ed⟩
  · intro pd ed s hmem
    constructor
    · show sqLabel pd ed ∈ sortLe strLe (dedupFirst ((stateInput absF sqF).map (fun p => p.1)))
      rw [mem_sortLe, mem_dedupFirst, stateInput_labels]
      exact List.mem_append_right _ (List.mem_map.mpr ⟨(pd, ed, s), hmem, rfl⟩)
    · intro hin
      have hin2 : sqLabel pd ed ∈ colsForRanking (assemble (stateInput absF sqF))
          "mean_abs_error" := by
        cases mode with
        | false => exact mem_takeLast _ _ _ hin
        | true => exact hin
      have hcontains : strContains (sqLabel pd ed) "mean_abs_error" = true :=
        (List.mem_filter.mp hin2).2
      rw [sqLabel_not_contains] at hcontains
      exact Bool.noConfusion hcontains

/-- Counterexample for C3 as stated: in the state branch in weeks-ahead
mode, the ranking columns are not all columns of the assembled table (the
squared-error column is excluded). -/
theorem ranking_window_counterexample :
    rankingCols (stateInput exAbsF exSqF) "mean_abs_error" true
      ≠ (assemble (stateInput exAbsF exSqF)).columns := by decide

/-- Witness for the amended C3: the squared-error column of the concrete
state input is a table column but not a ranking column. -/
theorem ranking_window_spec_witness :
    sqLabel ⟨2020, 11, 1⟩ ⟨2020, 12, 1⟩ ∈ (assemble (stateInput exAbsF exSqF)).columns
    ∧ sqLabel ⟨2020, 11, 1⟩ ⟨2020, 12, 1⟩
        ∉ rankingCols (stateInput exAbsF exSqF) "mean_abs_error" true :=
  (ranking_window_spec [] exAbsF exSqF true).2.2 ⟨2020, 11, 1⟩ ⟨2020, 12, 1⟩
    [("A", some 1)] (List.mem_singleton.mpr rfl)

/-! ### Key bookkeeping for the baseline comparator's `col_data` dict -/

theorem appendKey_inj (p m m' : String) (h : p ++ m = p ++ m') : m = m' := by
  have hd : p.data ++ m.data = p.data ++ m'.data := by
    have h2 := congrArg String.data h
    simpa [String.data_append] using h2
  exact String.ext (List.append_cancel_left hd)

theorem appendKey_ne (p q : String) (hp : ¬ p.data <+: q.data)
    (hq : ¬ q.data <+: p.data) (m m' : String) : p ++ m ≠ q ++ m' := by
  intro h
  have hd : p.data ++ m.data = q.data ++ m'.data := by
    have h2 := congrArg String.data h
    simpa [String.data_append] using h2
  rcases List.append_eq_append_iff.mp hd with ⟨e, he, _⟩ | ⟨e, he, _⟩
  · exact hp (he ▸ List.prefix_append p.data e)
  · exact hq (he ▸ List.prefix_append q.data e)

theorem append_ne_short (p t : String) (h : t.data.length < p.data.length)
    (m : String) : p ++ m ≠ t := by
  intro he
  have h2 := congrArg (fun s => s.data.length) he
  simp only [String.data_append, List.length_append] at h2
  omega

/-- Every entry of `col_data` is the `num_states` count or one of the four
per-model entries of some listed model. -/
theorem mem_colData (f : Frame) (k : String) (v : Option ℚ)
    (h : (k, v) ∈ colData f) :
    (k = "num_states" ∧ v = some (numStates f : ℚ))
    ∨ ∃ m', m' ∈ modelNames f ∧ (k, v) ∈ modelEntries f m' := by
  unfold colData at h
  rcases List.mem_cons.mp h with h | h
  · left
    exact ⟨congrArg Prod.fst h, congrArg Prod.snd h⟩
  · right
    exact List.mem_flatMap.mp h

/-- Enumeration of the keys and values a model contributes to `col_data`. -/
theorem modelEntries_key (f : Frame) (m' k : String) (v : Option ℚ)
    (h : (k, v) ∈ modelEntries f m') :
    (k = "mean_abs_error-" ++ m' ∧ v = meanAbsVal f m')
    ∨ ((m' == "Baseline") = false
        ∧ ((k = "num_states_with_projections-" ++ m' ∧ v = some (numProjections f m' : ℚ))
           ∨ (k = "num_states_beat_baseline-" ++ m' ∧ v = beatCountVal f m')
           ∨ (k = "perc_beat_baseline-" ++ m' ∧ v = percVal f m'))) := by
  unfold modelEntries at h
  rcases List.mem_append.mp h with h | h
  · by_cases hb : (m' == "Baseline") = true
    · rw [if_pos hb] at h
      simp at h
    · rw [if_neg hb] at h
      right
      refine ⟨Bool.eq_false_iff.mpr hb, ?_⟩
      rcases List.mem_cons.mp h with h | h
      · left
        exact ⟨congrArg Prod.fst h, congrArg Prod.snd h⟩
      · right
        cases hcs : colSum f ("beat_baseline-" ++ m') with
        | none =>
          rw [hcs] at h
          rcases List.mem_cons.mp h with h | h
          · left
            refine ⟨congrArg Prod.fst h, ?_⟩
            rw [show beatCountVal f m' = none by simp [beatCountVal, hcs]]
            exact congrArg Prod.snd h
          · have he := List.mem_singleton.mp h
            right
            refine ⟨congrArg Prod.fst he, ?_⟩
            rw [show percVal f m' = none by simp [percVal, hcs]]
            exact congrArg Prod.snd he
        | some q =>
          rw [hcs] at h
          rcases List.mem_cons.mp h with h | h
          · left
            refine ⟨congrArg Prod.fst h, ?_⟩
            rw [show beatCountVal f m' = some ((intTrunc q : Int) : ℚ)
              by simp [beatCountVal, hcs]]
            exact congrArg Prod.snd h
          · have he := List.mem_singleton.mp h
            right
            refine ⟨congrArg Prod.fst he, ?_⟩
            rw [show percVal f m' = some (q / (numProjections f m' : ℚ))
              by simp [percVal, hcs]]
            exact congrArg Prod.snd he
  · have he := List.mem_singleton.mp h
    left
    exact ⟨congrArg Prod.fst he, congrArg Prod.snd he⟩

/-- The `mean_abs_error` entry every listed model contributes. -/
theorem mean_mem_colData (f : Frame) (m : String) (hm : m ∈ modelNames f) :
    ("mean_abs_error-" ++ m, meanAbsVal f m) ∈ colData f := by
  unfold colData
  refine List.mem_cons.mpr (Or.inr (List.mem_flatMap.mpr ⟨m, hm, ?_⟩))
  unfold modelEntries
  exact List.mem_append_right _ (List.mem_singleton.mpr rfl)

/-- The beat-count and percentage entries of a listed non-Baseline model. -/
theorem beat_mem_colData (f : Frame) (m : String) (hm : m ∈ modelNames f)
    (hnb : (m == "Baseline") = false) :
    ("num_states_beat_baseline-" ++ m, beatCountVal f m) ∈ colData f
    ∧ ("perc_beat_baseline-" ++ m, percVal f m) ∈ colData f := by
  have hlist : ∀ e, e ∈
      [("num_states_beat_baseline-" ++ m, beatCountVal f m),
       ("perc_beat_baseline-" ++ m, percVal f m)] → e ∈ colData f := by
    intro e he
    unfold colData
    refine List.mem_cons.mpr (Or.inr (List.mem_flatMap.mpr ⟨m, hm, ?_⟩))
    unfold modelEntries
    rw [if_neg (by rw [hnb]; exact Bool.false_ne_true)]
    refine List.mem_append_left _ (List.mem_cons.mpr (Or.inr ?_))
    cases hcs : colSum f ("beat_baseline-" ++ m) with
    | none =>
      have hbv : beatCountVal f m = none := by simp [beatCountVal, hcs]
      have hpv : percVal f m = none := by simp [percVal, hcs]
      rw [hbv, hpv] at he
      exact he
    | some q =>
      have hbv : beatCountVal f m = some ((intTrunc q : Int) : ℚ) := by
        simp [beatCountVal, hcs]
      have hpv : percVal f m = some (q / (numProjections f m : ℚ)) := by
        simp [percVal, hcs]
      rw [hbv, hpv] at he
      exact he
  exact ⟨hlist _ (List.mem_cons_self _ _),
    hlist _ (List.mem_cons.mpr (Or.inr (List.mem_singleton.mpr rfl)))⟩

/-! ### C6: the mean-abs-error gating (corrected) -/

/-- C6 amended: the `mean_abs_error-<m>` value recorded in `col_data` is
non-missing iff `num_with_projections == num_states` AND the `error-<m>`
column has an observed value; when present it is the sum of the ABSOLUTE
values of the `error-<m>` entries divided by `num_states`; a model with any
state lacking a projection is recorded as missing. -/
theorem mean_abs_gating_spec (f : Frame) (m : String) :
    (m ∈ modelNames f → ("mean_abs_error-" ++ m, meanAbsVal f m) ∈ colData f)
    ∧ (∀ v, ("mean_abs_error-" ++ m, v) ∈ colData f →
        ((v.isSome = true) ↔ (numProjections f m = numStates f
            ∧ (colSum f ("error-" ++ m)).isSome = true))
        ∧ (∀ s, numProjections f m = numStates f →
            colSum f ("error-" ++ m) = some s → v = some (s / (numStates f : ℚ)))
        ∧ (numProjections f m ≠ numStates f → v = none)) := by
  constructor
  · exact mean_mem_colData f m
  · intro v hv
    have hval : v = meanAbsVal f m := by
      rcases mem_colData f _ _ hv with ⟨hk, _⟩ | ⟨m', _, hmem⟩
      · exact absurd hk (append_ne_short "mean_abs_error-" "num_states" (by decide) m)
      · rcases modelEntries_key f m' _ _ hmem with ⟨hk, hv'⟩ |
          ⟨_, ⟨hk, _⟩ | ⟨hk, _⟩ | ⟨hk, _⟩⟩
        · have hmm : m = m' := appendKey_inj _ _ _ hk
          rw [hv', ← hmm]
        · exact absurd hk (appendKey_ne _ _ (by decide) (by decide) m m')
        · exact absurd hk (appendKey_ne _ _ (by decide) (by decide) m m')
        · exact absurd hk (appendKey_ne _ _ (by decide) (by decide) m m')
    subst hval
    unfold meanAbsVal
    by_cases heq : numProjections f m = numStates f
    · rw [if_pos (by simp [heq])]
      refine ⟨?_, ?_, fun hne => absurd heq hne⟩
      · simp [heq]
      · intro s _ hcs
        rw [hcs]
        rfl
    · rw [if_neg (by simp [heq])]
      refine ⟨by simp [heq], ?_, fun _ => rfl⟩
      intro s hc _
      exact absurd hc heq

/-- Counterexample for C6 as stated: in `exF6`, model `A-B` has projections
for both states, yet the recorded mean-error value is `(|-3| + |1|)/2 = 2`,
not `((-3) + 1)/2 = -1` — the code sums absolute values, and the claim's
equation with the raw column sum fails. -/
theorem mean_abs_gating_counterexample :
    ("mean_abs_error-A-B", some (2 : ℚ)) ∈ colData exF6
    ∧ numProjections exF6 "A-B" = numStates exF6
    ∧ exF6.entry "AK" "error-A-B" = some (-3)
    ∧ exF6.entry "AL" "error-A-B" = some 1
    ∧ activeRows exF6 = ["AK", "AL"]
    ∧ ¬ (((-3 : ℚ) + 1) / ((numStates exF6 : Nat) : ℚ) = 2) := by
  have hns : numStates exF6 = 2 := by decide
  have hcs : colSum exF6 ("error-" ++ "A-B") = some (|(-3 : ℚ)| + (|(1 : ℚ)| + 0)) := rfl
  have hmv : meanAbsVal exF6 "A-B" = some 2 := by
    unfold meanAbsVal
    rw [if_pos (by decide), hcs]
    simp only [Option.map_some', Option.some.injEq, hns]
    norm_num
  refine ⟨?_, by decide, rfl, rfl, by decide, ?_⟩
  · rw [show ("mean_abs_error-A-B" : String) = "mean_abs_error-" ++ "A-B" from rfl, ← hmv]
    exact mean_mem_colData exF6 "A-B" (by decide)
  · rw [hns]
    norm_num

/-- Witness for the amended C6: the concrete model's entry is recorded. -/
theorem mean_abs_gating_spec_witness :
    ("mean_abs_error-" ++ "A-B", meanAbsVal exF6 "A-B") ∈ colData exF6 :=
  (mean_abs_gating_spec exF6 "A-B").1 (by decide)

/-! ### C7: missing beat-counts propagate as missing -/

/-- C7: for a listed non-Baseline model, the beat-count and percentage
entries are recorded; a missing summed beat-count makes both recorded as
missing (never coerced to 0), and a present one makes the percentage equal
`num_beat_baseline / num_with_projections`. -/
theorem perc_beat_missing_spec (f : Frame) (m : String) :
    (m ∈ modelNames f → (m == "Baseline") = false →
      ("num_states_beat_baseline-" ++ m, beatCountVal f m) ∈ colData f
      ∧ ("perc_beat_baseline-" ++ m, percVal f m) ∈ colData f)
    ∧ (∀ v, ("num_states_beat_baseline-" ++ m, v) ∈ colData f → v = beatCountVal f m)
    ∧ (∀ v, ("perc_beat_baseline-" ++ m, v) ∈ colData f → v = percVal f m)
    ∧ (colSum f ("beat_baseline-" ++ m) = none →
        beatCountVal f m = none ∧ percVal f m = none)
    ∧ (∀ q, colSum f ("beat_baseline-" ++ m) = some q →
        percVal f m = some (q / (numProjections f m : ℚ))) := by
  refine ⟨beat_mem_colData f m, ?_, ?_, ?_, ?_⟩
  · intro v hv
    rcases mem_colData f _ _ hv with ⟨hk, _⟩ | ⟨m', _, hmem⟩
    · exact absurd hk
        (append_ne_short "num_states_beat_baseline-" "num_states" (by decide) m)
    · rcases modelEntries_key f m' _ _ hmem with ⟨hk, _⟩ |
        ⟨_, ⟨hk, _⟩ | ⟨hk, hv'⟩ | ⟨hk, _⟩⟩
      · exact absurd hk (appendKey_ne _ _ (by decide) (by decide) m m')
      · exact absurd hk (appendKey_ne _ _ (by decide) (by decide) m m')
      · have hmm : m = m' := appendKey_inj _ _ _ hk
        rw [hv', ← hmm]
      · exact absurd hk (appendKey_ne _ _ (by decide) (by decide) m m')
  · intro v hv
    rcases mem_colData f _ _ hv with ⟨hk, _⟩ | ⟨m', _, hmem⟩
    · exact absurd hk
        (append_ne_short "perc_beat_baseline-" "num_states" (by decide) m)
    · rcases modelEntries_key f m' _ _ hmem with ⟨hk, _⟩ |
        ⟨_, ⟨hk, _⟩ | ⟨hk, _⟩ | ⟨hk, hv'⟩⟩
      · exact absurd hk (appendKey_ne _ _ (by decide) (by decide) m m')
      · exact absurd hk (appendKey_ne _ _ (by decide) (by decide) m m')
      · exact absurd hk (appendKey_ne _ _ (by decide) (by decide) m m')
      · have hmm : m = m' := appendKey_inj _ _ _ hk
        rw [hv', ← hmm]
  · intro hcs
    exact ⟨by simp [beatCountVal, hcs], by simp [percVal, hcs]⟩
  · intro q hcs
    simp [percVal, hcs]

/-- Witness for C7 at `exF7`: the beat column is all-missing, so both
entries are recorded as missing. -/
theorem perc_beat_missing_spec_witness :
    (("num_states_beat_baseline-" ++ "A-B", beatCountVal exF7 "A-B") ∈ colData exF7
      ∧ ("perc_beat_baseline-" ++ "A-B", percVal exF7 "A-B") ∈ colData exF7)
    ∧ (beatCountVal exF7 "A-B" = none ∧ percVal exF7 "A-B" = none) :=
  ⟨(perc_beat_missing_spec exF7 "A-B").1 (by decide) (by decide),
   (perc_beat_missing_spec exF7 "A-B").2.2.2.1 rfl⟩

/-! ### C10: the Baseline model only receives a mean-error entry -/

theorem lookupKey_eq_none (l : List (String × Option ℚ)) (k : String)
    (h : ∀ p ∈ l, p.1 ≠ k) : lookupKey l k = none := by
  unfold lookupKey
  rw [List.find?_eq_none.mpr (fun x hx hb => h x hx (eq_of_beq hb))]
  rfl

/-- C10: for every frame, `col_data` holds no
`num_states_with_projections-Baseline`, `num_states_beat_baseline-Baseline`
or `perc_beat_baseline-Baseline` key, and the Baseline model's only entry
is `mean_abs_error-Baseline`. -/
theorem baseline_row_keys_spec (f : Frame) :
    lookupKey (colData f) "num_states_with_projections-Baseline" = none
    ∧ lookupKey (colData f) "num_states_beat_baseline-Baseline" = none
    ∧ lookupKey (colData f) "perc_beat_baseline-Baseline" = none
    ∧ lookupKey (colData f) "mean_abs_error-Baseline" = some (meanAbsVal f "Baseline") := by
  have hgen : ∀ (pre : String),
      (pre = "num_states_with_projections-" ∨ pre = "num_states_beat_baseline-"
        ∨ pre = "perc_beat_baseline-") →
      ∀ p ∈ colData f, p.1 ≠ pre ++ "Baseline" := by
    intro pre hpre p hp
    rcases mem_colData f p.1 p.2 hp with ⟨hk, _⟩ | ⟨m', _, hmem⟩
    · rw [hk]
      rcases hpre with rfl | rfl | rfl
      · exact fun h => append_ne_short _ "num_states" (by decide) "Baseline" h.symm
      · exact fun h => append_ne_short _ "num_states" (by decide) "Baseline" h.symm
      · exact fun h => append_ne_short _ "num_states" (by decide) "Baseline" h.symm
    · rcases modelEntries_key f m' _ _ hmem with ⟨hk, _⟩ |
        ⟨hb, ⟨hk, _⟩ | ⟨hk, _⟩ | ⟨hk, _⟩⟩ <;> rw [hk] <;>
        rcases hpre with rfl | rfl | rfl
      · exact appendKey_ne _ _ (by decide) (by decide) m' "Baseline"
      · exact appendKey_ne _ _ (by decide) (by decide) m' "Baseline"
      · exact appendKey_ne _ _ (by decide) (by decide) m' "Baseline"
      · intro h
        have : m' = "Baseline" := appendKey_inj _ _ _ h
        rw [this] at hb
        simp at hb
      · exact appendKey_ne _ _ (by decide) (by decide) m' "Baseline"
      · exact appendKey_ne _ _ (by decide) (by decide) m' "Baseline"
      · exact appendKey_ne _ _ (by decide) (by decide) m' "Baseline"
      · intro h
        have : m' = "Baseline" := appendKey_inj _ _ _ h
        rw [this] at hb
        simp at hb
      · exact appendKey_ne _ _ (by decide) (by decide) m' "Baseline"
      · exact appendKey_ne _ _ (by decide) (by decide) m' "Baseline"
      · exact appendKey_ne _ _ (by decide) (by decide) m' "Baseline"
      · intro h
        have : m' = "Baseline" := appendKey_inj _ _ _ h
        rw [this] at hb
        simp at hb
  refine ⟨?_, ?_, ?_, ?_⟩
  · exact lookupKey_eq_none _ _ (hgen "num_states_with_projections-" (Or.inl rfl))
  · exact lookupKey_eq_none _ _ (hgen "num_states_beat_baseline-" (Or.inr (Or.inl rfl)))
  · exact lookupKey_eq_none _ _ (hgen "perc_beat_baseline-" (Or.inr (Or.inr rfl)))
  · have h1 : (("num_states" : String) == "mean_abs_error-Baseline") = false := by decide
    have h2 : (("mean_abs_error-" ++ "Baseline" : String)
        == "mean_abs_error-Baseline") = true := by decide
    unfold lookupKey colData
    rw [show modelNames f = "Baseline" :: f.cols.filter (fun c =>
        strContains c "-" && !(strContains c "error-")
          && !(strContains c "beat_baseline-")) from rfl]
    rw [List.flatMap_cons]
    rw [show modelEntries f "Baseline"
        = [("mean_abs_error-" ++ "Baseline", meanAbsVal f "Baseline")] from rfl]
    rw [List.singleton_append]
    simp [h1, h2]

/-! ### C8: the mode check at the top of `main` (corrected) -/

/-- C8 amended: the run passes the mode check iff exactly one of the two
options is truthy — a date counts when supplied, but `weeks_ahead = 0` is
falsy and counts as not supplied; the four prints and (when `out_dir` is
set) the `os.makedirs` call happen before the check, in every outcome. -/
theorem config_check_spec (e : Option Date) (w : Option Int) (o : Option String) :
    ((mainEvents e w o).2 = .ok () ↔
      ((truthyDate e = true ∧ truthyInt w = false)
        ∨ (truthyDate e = false ∧ truthyInt w = true)))
    ∧ (mainEvents e w o).1 = [Event.print, Event.print, Event.print, Event.print] ++
        (if o.isSome then [Event.makedirs] else []) := by
  cases he : truthyDate e <;> cases hw : truthyInt w <;>
    simp [mainEvents, he, hw]

/-- Counterexample for C8 as stated: supplying exactly one option, namely
`weeks_ahead = 0`, is rejected by the check (`0` is falsy in Python). -/
theorem config_check_counterexample :
    (mainEvents none (some 0) none).2 = .error .assertionError := rfl

end SummarizeEvaluations
